import Mathlib

/-!
Shallow embedding of `src/utility/data_utility.py` (clade_data_utils).

Tabular data frames are embedded as Lean lists of records.  Calendar dates are
embedded as `Int` days since 1970-01-01 (a Thursday), so the Python
`date.weekday()` convention (Monday = 0 .. Sunday = 6) is `(d + 3) % 7`.
Polars float division for `proportion = count / total_count` is embedded as
exact rational division; `null` values are `Option`; a Python exception is
embedded as an `Option.none` result.  Group-by is embedded deterministically in
first-occurrence key order (polars leaves group order unspecified), and sorts
are stable insertion sorts (polars sorts leave tie order unspecified); all
theorems below are robust to those order choices.
-/

namespace CladeData

/-- Days since 1970-01-01. -/
abbrev Day := Int

/-- One raw line-list record, with the five columns `data_prep` selects
(`cols` in the source).  `date` is the result of the non-strict cast to
`pl.Date`: unparseable or missing dates are `none`. -/
structure RawRow where
  clade_nextstrain : Option String
  country : String
  division : String
  host : String
  date : Option Day
  deriving DecidableEq, Repr

/-- The fixed 51-value set of US states plus Washington DC (`states` in the
source). -/
def states : List String :=
  ["Alabama", "Alaska", "Arizona", "Arkansas", "California", "Colorado",
   "Connecticut", "Delaware", "Florida", "Georgia", "Hawaii", "Idaho",
   "Illinois", "Indiana", "Iowa", "Kansas", "Kentucky", "Louisiana", "Maine",
   "Maryland", "Massachusetts", "Michigan", "Minnesota", "Mississippi",
   "Missouri", "Montana", "Nebraska", "Nevada", "New Hampshire", "New Jersey",
   "New Mexico", "New York", "North Carolina", "North Dakota", "Ohio",
   "Oklahoma", "Oregon", "Pennsylvania", "Rhode Island", "South Carolina",
   "South Dakota", "Tennessee", "Texas", "Utah", "Vermont", "Virginia",
   "Washington", "West Virginia", "Wisconsin", "Wyoming", "Washington DC"]

/-- A row after the filter and rename step of `data_prep` (the frame `df` in
the source): columns `location`, `date`, `clade`. -/
structure CleanRow where
  location : String
  date : Day
  clade : Option String
  deriving DecidableEq, Repr

/-- A row of the aggregated output of `data_prep` (`counts_dat` in the
source): columns `location`, `date`, `clade`, `count`. -/
structure AggRow where
  location : String
  date : Day
  clade : Option String
  count : Nat
  deriving DecidableEq, Repr

/-- The four filter conditions of `data_prep`, conjunctive, as in the source:
`country == "USA"`, `division.is_in(states)`, `date.is_not_null()`,
`host == "Homo sapiens"`. -/
def rowKeep (r : RawRow) : Bool :=
  r.country == "USA" && states.contains r.division && r.date.isSome &&
    r.host == "Homo sapiens"

/-- The filter-and-rename step of `data_prep` (the frame `df` in the source):
keep exactly the rows passing the four `rowKeep` conditions and project them
to `location`, `date`, `clade`.  The filter guarantees `date.isSome`, so the
`getD` default is never used. -/
def cleanRows (rows : List RawRow) : List CleanRow :=
  (rows.filter rowKeep).map
    (fun r => ⟨r.division, r.date.getD 0, r.clade_nextstrain⟩)

/-- First-occurrence deduplication, accumulating the keys already seen.
Embeds the group-key list of a polars `group_by`. -/
def dedupFirstAux [DecidableEq α] (seen : List α) : List α → List α
  | [] => []
  | a :: as =>
      if a ∈ seen then dedupFirstAux seen as
      else a :: dedupFirstAux (a :: seen) as

/-- The distinct elements of `l`, in first-occurrence order. -/
def dedupFirst [DecidableEq α] (l : List α) : List α := dedupFirstAux [] l

/-- Group the elements of `l` by their own value and count occurrences:
the `group_by(...).agg(pl.len())` step of `data_prep`. -/
def groupCounts [DecidableEq α] (l : List α) : List (α × Nat) :=
  (dedupFirst l).map (fun k => (k, l.count k))

/-- Group a keyed list and sum the attached counts within each key:
the `group_by(...).agg(pl.col("count").sum())` pattern of the source. -/
def groupSum [DecidableEq α] (l : List (α × Nat)) : List (α × Nat) :=
  (dedupFirst (l.map Prod.fst)).map
    (fun k => (k, ((l.filter (fun p => decide (p.1 = k))).map Prod.snd).sum))

/-- Ordering of aggregated rows by date, used by `sort("date")`. -/
def dateLE (a b : AggRow) : Prop := a.date ≤ b.date

instance : DecidableRel dateLE := fun a b => Int.decLe a.date b.date

instance : IsTotal AggRow dateLE := ⟨fun a b => Int.le_total a.date b.date⟩

instance : IsTrans AggRow dateLE := ⟨fun _ _ _ h₁ h₂ => le_trans h₁ h₂⟩

/-- Function `data_prep`: filter and rename the raw rows, collapse them into one row
per `(location, date, clade)` group carrying the group size as `count`, and
sort the result ascending by `date`. -/
def data_prep (rows : List RawRow) : List AggRow :=
  List.insertionSort dateLE
    ((groupCounts (cleanRows rows)).map
      (fun p => ⟨p.1.location, p.1.date, p.1.clade, p.2⟩))

/-- Python `date.weekday()`: Monday = 0 .. Sunday = 6.  Day 0 (1970-01-01)
was a Thursday, so this is `(d + 3) % 7`. -/
def weekdayMon (d : Day) : Int := (d + 3) % 7

/-- The most recent Sunday on or before `d`: the start of the Sunday-based
week containing `d`.  This is the week bucket assigned to `d` by
`group_by_dynamic("date", every="1w", start_by="sunday")`. -/
def sundayOnOrBefore (d : Day) : Day := d - ((d + 4) % 7)

/-- Line 103 of the source:
`max_day - timedelta(days = max_day.weekday() + 7*(threshold_weeks))`. -/
def windowStart (maxDay : Day) (threshold_weeks : Nat) : Day :=
  maxDay - (weekdayMon maxDay + 7 * (threshold_weeks : Int))

/-- The maximum of the date column, `dataf["date"].max()`: `none` on an
empty frame (polars returns null),
otherwise the largest date value. -/
def maxDate (rows : List AggRow) : Option Day :=
  match rows.map (fun r => r.date) with
  | [] => none
  | d :: ds => some (ds.foldl (fun a b => if a ≤ b then b else a) d)

/-- The window filter `dataf.filter(pl.col("date") >= three_sundays_ago)`. -/
def windowRows (rows : List AggRow) (ws : Day) : List AggRow :=
  rows.filter (fun r => decide (ws ≤ r.date))

/-- The weekly aggregation
`group_by_dynamic("date", every="1w", start_by="sunday", group_by="clade")
.agg(pl.col("count").sum())`: each row is bucketed into the Sunday-based week
containing its date, grouped by `(clade, week)`, and counts are summed
(marginalizing out `location`). -/
def weeklyCounts (rows : List AggRow) : List ((Option String × Day) × Nat) :=
  groupSum (rows.map (fun r => ((r.clade, sundayOnOrBefore r.date), r.count)))

/-- The frame `total_counts = df.group_by("date").agg(pl.col("count").sum())`: total
sequenced volume per week, summed over the clade groups of that week. -/
def totalCounts (weekly : List ((Option String × Day) × Nat)) :
    List (Day × Nat) :=
  groupSum (weekly.map (fun p => (p.1.2, p.2)))

/-- A row of `prop_dat`: the weekly clade count joined with the total
count of that week. -/
structure WeeklyRow where
  clade : Option String
  week : Day
  count : Nat
  total : Nat
  deriving DecidableEq, Repr

/-- The join `prop_dat = df.join(total_counts, on="date")`: every weekly row is paired
with the total of its own week (the key is always present because
`total_counts` is grouped from the same frame). -/
def propDat (weekly : List ((Option String × Day) × Nat)) : List WeeklyRow :=
  weekly.map (fun p => ⟨p.1.1, p.1.2, p.2, ((totalCounts weekly).lookup p.1.2).getD 0⟩)

/-- The `proportion` column: `count / total_count` as an exact rational,
written with `mkRat` so that it evaluates in the kernel; `proportion_eq_div`
below shows it is literally the division of the two casts. -/
def proportion (w : WeeklyRow) : ℚ := mkRat w.count w.total

/-- The `proportion` column is the rational division `count / total_count`. -/
theorem proportion_eq_div (w : WeeklyRow) :
    proportion w = (w.count : ℚ) / (w.total : ℚ) := by
  rw [proportion, Rat.mkRat_eq_div]; push_cast; ring

/-- The whole windowed weekly proportion frame of `clades_to_model` for a
given `max_day`: lines 106-119 of the source. -/
def propOf (rows : List AggRow) (threshold_weeks : Nat) (maxDay : Day) :
    List WeeklyRow :=
  propDat (weeklyCounts (windowRows rows (windowStart maxDay threshold_weeks)))

/-- The list `high_prev_variants`: the distinct clades with `proportion > threshold`
for at least one week of the window. -/
def highPrevVariants (threshold : ℚ) (pd : List WeeklyRow) :
    List (Option String) :=
  dedupFirst ((pd.filter (fun w => decide (threshold < proportion w))).map
    (fun w => w.clade))

/-- Ordering of `(clade, summed count)` pairs by count, used by
`sort("count")` in the fallback branch. -/
def countLE (p q : Option String × Nat) : Prop := p.2 ≤ q.2

instance : DecidableRel countLE := fun p q => Nat.decLe p.2 q.2

instance : IsTotal (Option String × Nat) countLE := ⟨fun p q => Nat.le_total p.2 q.2⟩

instance : IsTrans (Option String × Nat) countLE := ⟨fun _ _ _ h₁ h₂ => le_trans h₁ h₂⟩

/-- The fallback branch of `clades_to_model` (lines 130-137): group `prop_dat`
by clade, sum counts over the window, sort ascending by that sum, and take the
first 9 clades. -/
def fallbackVariants (pd : List WeeklyRow) : List (Option String) :=
  (((List.insertionSort countLE
      (groupSum (pd.map (fun w => (w.clade, w.count))))).map Prod.fst).take 9)

/-- Function `clades_to_model`: on an empty frame `max()` is null and
`max_day.weekday()` raises, embedded as `none`.  Otherwise build the windowed
weekly proportions, take the clades crossing the threshold, and if there are
more than 9 of them take instead the 9 with the smallest summed counts. -/
def clades_to_model (rows : List AggRow) (threshold : ℚ := 1/100)
    (threshold_weeks : Nat := 3) : Option (List (Option String)) :=
  match maxDate rows with
  | none => none
  | some maxDay =>
      let pd := propOf rows threshold_weeks maxDay
      let hpv := highPrevVariants threshold pd
      some (if 9 < hpv.length then fallbackVariants pd else hpv)

/-- The summed count of clade `c` over the weekly window frame `pd`; the
quantity the fallback branch ranks by. -/
def totalOf (pd : List WeeklyRow) (c : Option String) : Nat :=
  ((pd.filter (fun w => decide (w.clade = c))).map (fun w => w.count)).sum

/-- The key of an aggregated row, as the corresponding clean row. -/
def cleanOf (a : AggRow) : CleanRow := ⟨a.location, a.date, a.clade⟩

/-- Rebuild an aggregated row from a keyed count. -/
def aggOf (p : CleanRow × Nat) : AggRow := ⟨p.1.location, p.1.date, p.1.clade, p.2⟩

/-- The summed count attached to key `k` by `groupSum`. -/
def sumKey [DecidableEq α] (l : List (α × Nat)) (k : α) : Nat :=
  ((l.filter (fun p => decide (p.1 = k))).map Prod.snd).sum

theorem mem_dedupFirstAux [DecidableEq α] {a : α} (seen l : List α) :
    a ∈ dedupFirstAux seen l ↔ a ∈ l ∧ a ∉ seen := by
  induction l generalizing seen with
  | nil => simp [dedupFirstAux]
  | cons b l ih =>
      simp only [dedupFirstAux]
      split
      · rename_i hb
        rw [ih]
        simp only [List.mem_cons]
        constructor
        · rintro ⟨h1, h2⟩; exact ⟨Or.inr h1, h2⟩
        · rintro ⟨h1 | h1, h2⟩
          · exact absurd (h1 ▸ hb) h2
          · exact ⟨h1, h2⟩
      · rename_i hb
        simp only [List.mem_cons, ih, List.mem_cons]
        constructor
        · rintro (rfl | ⟨h1, h2⟩)
          · exact ⟨Or.inl rfl, hb⟩
          · exact ⟨Or.inr h1, fun hs => h2 (Or.inr hs)⟩
        · rintro ⟨rfl | h1, h2⟩
          · exact Or.inl rfl
          · by_cases hab : a = b
            · exact Or.inl hab
            · exact Or.inr ⟨h1, fun hs => by
                rcases hs with rfl | hs
                · exact hab rfl
                · exact h2 hs⟩

theorem nodup_dedupFirstAux [DecidableEq α] (seen l : List α) :
    (dedupFirstAux seen l).Nodup := by
  induction l generalizing seen with
  | nil => simp [dedupFirstAux]
  | cons b l ih =>
      simp only [dedupFirstAux]
      split
      · exact ih seen
      · refine List.nodup_cons.mpr ⟨fun hb => ?_, ih (b :: seen)⟩
        exact ((mem_dedupFirstAux _ _).mp hb).2 (List.mem_cons_self _ _)

theorem mem_dedupFirst [DecidableEq α] {a : α} (l : List α) :
    a ∈ dedupFirst l ↔ a ∈ l := by
  rw [dedupFirst, mem_dedupFirstAux]; simp

theorem nodup_dedupFirst [DecidableEq α] (l : List α) : (dedupFirst l).Nodup :=
  nodup_dedupFirstAux [] l

theorem toFinset_dedupFirst [DecidableEq α] (l : List α) :
    (dedupFirst l).toFinset = l.toFinset := by
  ext a; simp [mem_dedupFirst]

/-- A list with no duplicates whose members all occur in `l` is no longer
than the deduplicated `l`. -/
theorem length_le_dedupFirst [DecidableEq α] {s l : List α} (hs : s.Nodup)
    (hmem : ∀ a ∈ s, a ∈ l) : s.length ≤ (dedupFirst l).length := by
  rw [← List.toFinset_card_of_nodup hs,
      ← List.toFinset_card_of_nodup (nodup_dedupFirst l), toFinset_dedupFirst]
  exact Finset.card_le_card (fun a ha =>
    List.mem_toFinset.mpr (hmem a (List.mem_toFinset.mp ha)))

theorem groupSum_eq [DecidableEq α] (l : List (α × Nat)) :
    groupSum l = (dedupFirst (l.map Prod.fst)).map (fun k => (k, sumKey l k)) := rfl

theorem map_fst_groupSum [DecidableEq α] (l : List (α × Nat)) :
    (groupSum l).map Prod.fst = dedupFirst (l.map Prod.fst) := by
  rw [groupSum_eq, List.map_map]
  exact List.map_id'' (fun k => rfl) _

theorem mem_groupSum [DecidableEq α] {p : α × Nat} {l : List (α × Nat)}
    (h : p ∈ groupSum l) : p.1 ∈ l.map Prod.fst ∧ p.2 = sumKey l p.1 := by
  rw [groupSum_eq, List.mem_map] at h
  obtain ⟨k, hk, rfl⟩ := h
  exact ⟨(mem_dedupFirst _).mp hk, rfl⟩

theorem fst_mem_groupSum [DecidableEq α] {k : α} {l : List (α × Nat)}
    (h : k ∈ l.map Prod.fst) : k ∈ (groupSum l).map Prod.fst := by
  rw [map_fst_groupSum, mem_dedupFirst]; exact h

/-- Looking up a key in an association list built by pairing each key with a
computed value. -/
theorem lookup_map_self [DecidableEq α] [BEq α] [LawfulBEq α]
    (ks : List α) (f : α → β) {k : α} (h : k ∈ ks) :
    (ks.map (fun x => (x, f x))).lookup k = some (f k) := by
  induction ks with
  | nil => cases h
  | cons x ks ih =>
      simp only [List.map_cons, List.lookup]
      by_cases hkx : k = x
      · subst hkx; simp
      · have : (k == x) = false := beq_false_of_ne hkx
        rw [this]
        refine ih ?_
        rcases List.mem_cons.mp h with rfl | h₂
        · exact absurd rfl hkx
        · exact h₂

theorem lookup_groupSum [DecidableEq α] [BEq α] [LawfulBEq α] {k : α}
    {l : List (α × Nat)} (h : k ∈ l.map Prod.fst) :
    (groupSum l).lookup k = some (sumKey l k) := by
  rw [groupSum_eq]
  exact lookup_map_self _ _ ((mem_dedupFirst _).mpr h)

/-- Any key actually occurring in `l` has a positive summed count, provided
every row carries a positive count. -/
theorem sumKey_pos [DecidableEq α] {l : List (α × Nat)}
    (hpos : ∀ p ∈ l, 1 ≤ p.2) {k : α} (h : k ∈ l.map Prod.fst) :
    1 ≤ sumKey l k := by
  rw [List.mem_map] at h
  obtain ⟨p, hp, rfl⟩ := h
  have hmem : p.2 ∈ (l.filter (fun q => decide (q.1 = p.1))).map Prod.snd :=
    List.mem_map_of_mem _ (List.mem_filter.mpr ⟨hp, by simp⟩)
  calc 1 ≤ p.2 := hpos p hp
    _ ≤ _ := List.single_le_sum (fun x _ => Nat.zero_le x) _ hmem

/-- The four conditions of `rowKeep` as a proposition. -/
theorem rowKeep_iff (r : RawRow) :
    rowKeep r = true ↔
      r.country = "USA" ∧ r.division ∈ states ∧ r.date.isSome ∧
        r.host = "Homo sapiens" := by
  simp [rowKeep, Bool.and_assoc, and_assoc]

/-- Membership in the filtered and renamed frame: a clean row is present iff
some raw row passes all four filter conditions and carries its fields. -/
theorem mem_cleanRows {c : CleanRow} {rows : List RawRow} :
    c ∈ cleanRows rows ↔
      ∃ r ∈ rows, r.country = "USA" ∧ r.division ∈ states ∧
        r.host = "Homo sapiens" ∧ r.date = some c.date ∧
        r.division = c.location ∧ r.clade_nextstrain = c.clade := by
  rw [cleanRows, List.mem_map]
  constructor
  · rintro ⟨r, hr, rfl⟩
    obtain ⟨hrmem, hkeep⟩ := List.mem_filter.mp hr
    obtain ⟨h1, h2, h3, h4⟩ := (rowKeep_iff r).mp hkeep
    refine ⟨r, hrmem, h1, h2, h4, ?_, rfl, rfl⟩
    rcases hd : r.date with _ | d
    · rw [hd] at h3; cases h3
    · simp [hd]
  · rintro ⟨r, hr, h1, h2, h3, h4, h5, h6⟩
    refine ⟨r, List.mem_filter.mpr
      ⟨hr, (rowKeep_iff r).mpr ⟨h1, h2, by rw [h4]; rfl, h3⟩⟩, ?_⟩
    cases c
    simp only [CleanRow.mk.injEq]
    exact ⟨h5, by rw [h4]; rfl, h6⟩

/-- Raw rows failing any filter condition produce nothing in `cleanRows`:
filtering them away first does not change the result. -/
theorem cleanRows_filter_rowKeep (rows : List RawRow) :
    cleanRows (rows.filter rowKeep) = cleanRows rows := by
  rw [cleanRows, cleanRows, List.filter_filter]
  simp

/-- The number of occurrences of a clean row in `cleanRows rows` equals the
number of raw rows that pass the filter and carry exactly its fields. -/
theorem count_cleanRows (rows : List RawRow) (c : CleanRow) :
    (cleanRows rows).count c =
      (rows.filter (fun r =>
        rowKeep r && (r.division == c.location) && (r.date == some c.date) &&
          (r.clade_nextstrain == c.clade))).length := by
  rw [cleanRows, List.count, List.countP_map, List.countP_filter,
      ← List.countP_eq_length_filter]
  apply List.countP_congr
  intro r _
  rw [Bool.eq_iff_iff]
  rcases hd : r.date with _ | d
  · have hk : rowKeep r = false := by simp [rowKeep, hd]
    simp [Function.comp, hk]
  · by_cases hk : rowKeep r = true
    · cases c
      simp [Function.comp, hk, hd, CleanRow.mk.injEq, and_assoc]
    · rw [Bool.not_eq_true] at hk
      simp [Function.comp, hk]


theorem data_prep_eq (rows : List RawRow) :
    data_prep rows =
      List.insertionSort dateLE ((groupCounts (cleanRows rows)).map aggOf) := rfl

/-- The aggregated output is a permutation of the grouped counts. -/
theorem data_prep_perm (rows : List RawRow) :
    (data_prep rows).Perm ((groupCounts (cleanRows rows)).map aggOf) :=
  List.perm_insertionSort dateLE _

/-- Membership in the aggregated output: a row is present iff its key occurs
among the filtered clean rows and its count is the multiplicity of that key. -/
theorem mem_data_prep {a : AggRow} {rows : List RawRow} :
    a ∈ data_prep rows ↔
      cleanOf a ∈ cleanRows rows ∧
        a.count = (cleanRows rows).count (cleanOf a) := by
  rw [(data_prep_perm rows).mem_iff, List.mem_map]
  constructor
  · rintro ⟨p, hp, rfl⟩
    rw [groupCounts, List.mem_map] at hp
    obtain ⟨k, hk, rfl⟩ := hp
    exact ⟨(mem_dedupFirst _).mp hk, rfl⟩
  · rintro ⟨hmem, hcount⟩
    refine ⟨(cleanOf a, (cleanRows rows).count (cleanOf a)), ?_, ?_⟩
    · rw [groupCounts, List.mem_map]
      exact ⟨cleanOf a, (mem_dedupFirst _).mpr hmem, rfl⟩
    · cases a
      simp only [aggOf, cleanOf] at *
      rw [← hcount]

/-- The key projections of the aggregated output, as clean rows. -/
theorem map_cleanOf_data_prep_perm (rows : List RawRow) :
    ((data_prep rows).map cleanOf).Perm (dedupFirst (cleanRows rows)) := by
  have h := (data_prep_perm rows).map cleanOf
  have : ((groupCounts (cleanRows rows)).map aggOf).map cleanOf =
      dedupFirst (cleanRows rows) := by
    rw [groupCounts, List.map_map, List.map_map]
    exact List.map_id'' (fun k => rfl) _
  rwa [this] at h

/-- No two aggregated rows share a key. -/
theorem nodup_keys_data_prep (rows : List RawRow) :
    ((data_prep rows).map cleanOf).Nodup :=
  ((map_cleanOf_data_prep_perm rows).nodup_iff).mpr (nodup_dedupFirst _)

/-- Every aggregated count is at least one. -/
theorem count_pos_data_prep {a : AggRow} {rows : List RawRow}
    (h : a ∈ data_prep rows) : 1 ≤ a.count := by
  obtain ⟨hmem, hcount⟩ := mem_data_prep.mp h
  rw [hcount]
  exact List.count_pos_iff.mpr hmem


/-- Unfolding `clades_to_model` once the maximum date is known. -/
theorem clades_to_model_eq {rows : List AggRow} {threshold : ℚ}
    {tw : Nat} {maxDay : Day} (hmax : maxDate rows = some maxDay) :
    clades_to_model rows threshold tw =
      some (if 9 < (highPrevVariants threshold (propOf rows tw maxDay)).length
        then fallbackVariants (propOf rows tw maxDay)
        else highPrevVariants threshold (propOf rows tw maxDay)) := by
  rw [clades_to_model, hmax]

/-- In the fallback branch the result is the ranked-ascending prefix. -/
theorem clades_to_model_fallback {rows : List AggRow} {threshold : ℚ}
    {tw : Nat} {maxDay : Day} (hmax : maxDate rows = some maxDay)
    (hgt : 9 < (highPrevVariants threshold (propOf rows tw maxDay)).length) :
    clades_to_model rows threshold tw =
      some (fallbackVariants (propOf rows tw maxDay)) := by
  rw [clades_to_model_eq hmax, if_pos hgt]

/-- Each entry of the proportion frame is a weekly group: its count is the
group sum for its `(clade, week)` key and its total is the week total. -/
theorem mem_propDat {w : WeeklyRow}
    {weekly : List ((Option String × Day) × Nat)} (h : w ∈ propDat weekly) :
    ((w.clade, w.week), w.count) ∈ weekly ∧
      w.total = (((totalCounts weekly).lookup w.week).getD 0) := by
  rw [propDat, List.mem_map] at h
  obtain ⟨p, hp, rfl⟩ := h
  exact ⟨hp, rfl⟩

/-- The total of any proportion-frame row is the week total of its own week,
a sum over that week of the weekly group counts. -/
theorem propDat_total_eq {w : WeeklyRow}
    {weekly : List ((Option String × Day) × Nat)} (h : w ∈ propDat weekly) :
    w.total = sumKey (weekly.map (fun p => (p.1.2, p.2))) w.week := by
  obtain ⟨hmem, htot⟩ := mem_propDat h
  have hkey : w.week ∈ (weekly.map (fun p => (p.1.2, p.2))).map Prod.fst := by
    rw [List.map_map]
    exact List.mem_map_of_mem _ hmem
  rw [htot, totalCounts, lookup_groupSum hkey, Option.getD_some]


/-- A one-row raw sample used to instantiate hypotheses at concrete inputs:
one USA / California / human row with a parsed date (2023-01-02). -/
def rawSample : List RawRow :=
  [⟨some "22B", "USA", "California", "Homo sapiens", some 19359⟩]

/-- The aggregated row produced by `data_prep rawSample`. -/
def aggSample : AggRow := ⟨"California", 19359, some "22B", 1⟩

/-- Claim C7: for every raw input, the sequence of date values in the
aggregate (`data_prep`) output is non-decreasing from the first row to the
last (output sorted ascending by date). -/
theorem claim_c7_data_prep_sorted (rows : List RawRow) :
    (data_prep rows).Pairwise (fun a b => a.date ≤ b.date) :=
  List.sorted_insertionSort dateLE _

/-- Claim C4: every aggregate output row has a location in the fixed 51-value
state set and a (non-null) date, and originates from raw rows satisfying all
four filter conditions; the filter is exhaustive, so dropping the violating
raw rows first changes nothing. -/
theorem claim_c4_filter_exhaustive (rows : List RawRow) (a : AggRow)
    (h : a ∈ data_prep rows) :
    a.location ∈ states ∧
      (∃ r ∈ rows, r.country = "USA" ∧ r.division ∈ states ∧
        r.host = "Homo sapiens" ∧ r.date = some a.date ∧
        r.division = a.location ∧ r.clade_nextstrain = a.clade) ∧
      data_prep (rows.filter rowKeep) = data_prep rows := by
  obtain ⟨hmem, -⟩ := mem_data_prep.mp h
  obtain ⟨r, hr, h1, h2, h3, h4, h5, h6⟩ := mem_cleanRows.mp hmem
  simp only [cleanOf] at h4 h5 h6
  refine ⟨h5 ▸ h2, ⟨r, hr, h1, h2, h3, h4, h5, h6⟩, ?_⟩
  rw [data_prep_eq, data_prep_eq, cleanRows_filter_rowKeep]

/-- Claim C4, instantiated at a concrete input. -/
theorem claim_c4_witness :
    aggSample ∈ data_prep rawSample ∧
      (aggSample.location ∈ states ∧
        (∃ r ∈ rawSample, r.country = "USA" ∧ r.division ∈ states ∧
          r.host = "Homo sapiens" ∧ r.date = some aggSample.date ∧
          r.division = aggSample.location ∧ r.clade_nextstrain = aggSample.clade) ∧
        data_prep (rawSample.filter rowKeep) = data_prep rawSample) :=
  ⟨by decide, claim_c4_filter_exhaustive rawSample aggSample (by decide)⟩

/-- Claim C5: the key `(location, date, variant)` is unique in the aggregate
output, and each count is exactly the number of raw rows that pass the filter
and share that key. -/
theorem claim_c5_unique_key_exact_count (rows : List RawRow) :
    ((data_prep rows).map (fun a => (a.location, a.date, a.clade))).Nodup ∧
      ∀ a ∈ data_prep rows,
        a.count = (rows.filter (fun r =>
          rowKeep r && (r.division == a.location) && (r.date == some a.date) &&
            (r.clade_nextstrain == a.clade))).length := by
  constructor
  · have h := nodup_keys_data_prep rows
    have heq : (data_prep rows).map (fun a => (a.location, a.date, a.clade)) =
        ((data_prep rows).map cleanOf).map (fun c => (c.location, c.date, c.clade)) := by
      rw [List.map_map]; rfl
    rw [heq]
    refine h.map ?_
    intro c d hcd
    cases c; cases d
    simpa using hcd
  · intro a ha
    obtain ⟨-, hcount⟩ := mem_data_prep.mp ha
    rw [hcount, count_cleanRows]
    rfl

/-- Claim C5, instantiated at a concrete input. -/
theorem claim_c5_witness :
    aggSample ∈ data_prep rawSample ∧
      aggSample.count = (rawSample.filter (fun r =>
        rowKeep r && (r.division == aggSample.location) &&
          (r.date == some aggSample.date) &&
          (r.clade_nextstrain == aggSample.clade))).length :=
  ⟨by decide, (claim_c5_unique_key_exact_count rawSample).2 aggSample (by decide)⟩


/-- Claim C8: the proportion division never divides by zero.  Every
`data_prep` output count is at least 1; and whenever every input count is at
least 1, every row of the weekly proportion frame has a strictly positive
`total_count` (that total being the sum over the same week of its group
counts). -/
theorem claim_c8_no_division_by_zero :
    (∀ (raws : List RawRow), ∀ a ∈ data_prep raws, 1 ≤ a.count) ∧
      ∀ (rows : List AggRow) (ws : Day),
        (∀ r ∈ rows, 1 ≤ r.count) →
          ∀ w ∈ propDat (weeklyCounts (windowRows rows ws)), 0 < w.total := by
  constructor
  · intro raws a ha
    exact count_pos_data_prep ha
  · intro rows ws hpos w hw
    rw [propDat_total_eq hw]
    apply sumKey_pos
    · intro p hp
      rw [List.mem_map] at hp
      obtain ⟨q, hq, rfl⟩ := hp
      obtain ⟨hk, hsum⟩ := mem_groupSum hq
      simp only
      rw [hsum]
      apply sumKey_pos
      · intro b hb
        rw [List.mem_map] at hb
        obtain ⟨r, hr, rfl⟩ := hb
        exact hpos r (List.mem_filter.mp hr).1
      · exact hk
    · have hmem := (mem_propDat hw).1
      rw [List.map_map]
      exact List.mem_map_of_mem _ hmem

/-- Claim C8, instantiated at a concrete input. -/
theorem claim_c8_witness :
    1 ≤ aggSample.count ∧
      0 < (⟨some "22B", 19358, 1, 1⟩ : WeeklyRow).total :=
  ⟨claim_c8_no_division_by_zero.1 rawSample aggSample (by decide),
   claim_c8_no_division_by_zero.2 [aggSample] 0 (by decide)
     ⟨some "22B", 19358, 1, 1⟩ (by decide)⟩

/-- Claim C6: whenever `clades_to_model` returns a list, it has length at
most 9 and no duplicate identifiers, in both the threshold branch and the
fallback branch. -/
theorem claim_c6_size_and_nodup (rows : List AggRow) (threshold : ℚ)
    (tw : Nat) (out : List (Option String))
    (h : clades_to_model rows threshold tw = some out) :
    out.length ≤ 9 ∧ out.Nodup := by
  rcases hmax : maxDate rows with _ | maxDay
  · rw [clades_to_model, hmax] at h
    cases h
  · rw [clades_to_model_eq hmax] at h
    obtain rfl := Option.some.inj h
    split
    · constructor
      · exact List.length_take_le _ _
      · have hperm := (List.perm_insertionSort countLE
          (groupSum ((propOf rows tw maxDay).map (fun w => (w.clade, w.count))))).map Prod.fst
        have hnd : ((groupSum ((propOf rows tw maxDay).map
            (fun w => (w.clade, w.count)))).map Prod.fst).Nodup := by
          rw [map_fst_groupSum]
          exact nodup_dedupFirst _
        exact (List.take_sublist _ _).nodup (hperm.nodup_iff.mpr hnd)
    · constructor
      · rename_i hle
        exact Nat.le_of_not_lt hle
      · exact nodup_dedupFirst _

/-- Claim C6, instantiated at a concrete input. -/
theorem claim_c6_witness :
    ([some "22B"] : List (Option String)).length ≤ 9 ∧
      ([some "22B"] : List (Option String)).Nodup :=
  claim_c6_size_and_nodup [aggSample] (mkRat 1 100) 3 [some "22B"] (by decide)

/-- Claim C9, counterexample: on an empty aggregated input the function does
not return an empty list; `max()` of an empty column is null, so
`max_day.weekday()` raises, embedded as `none`. -/
theorem claim_c9_counterexample :
    clades_to_model ([] : List AggRow) (mkRat 1 100) 3 = none ∧
      clades_to_model ([] : List AggRow) (mkRat 1 100) 3 ≠ some [] := by
  decide

/-- Claim C9 as amended: on a NON-empty input where no variant crosses the
threshold in any window week, the function returns an empty list and no
error; the empty-input case instead raises (see the counterexample). -/
theorem claim_c9_amended_empty_selection (rows : List AggRow) (threshold : ℚ)
    (tw : Nat) (maxDay : Day) (hmax : maxDate rows = some maxDay)
    (hnone : ∀ w ∈ propOf rows tw maxDay, proportion w ≤ threshold) :
    clades_to_model rows threshold tw = some [] := by
  have hhpv : highPrevVariants threshold (propOf rows tw maxDay) = [] := by
    rw [highPrevVariants]
    have hfil : (propOf rows tw maxDay).filter
        (fun w => decide (threshold < proportion w)) = [] := by
      rw [List.filter_eq_nil_iff]
      intro w hw
      simpa using not_lt.mpr (hnone w hw)
    rw [hfil]
    rfl
  rw [clades_to_model_eq hmax, hhpv]
  rfl

/-- Claim C9 as amended, instantiated at a concrete input. -/
theorem claim_c9_witness :
    clades_to_model [aggSample] (mkRat 1 1) 3 = some [] :=
  claim_c9_amended_empty_selection [aggSample] (mkRat 1 1) 3 19359
    (by decide) (by decide)


/-- Claim C1 (code bug): with max date 19359 (Monday 2023-01-02) and
`threshold_weeks = 3`, the computed cutoff `three_sundays_ago` is 19338
(Monday 2022-12-12), not the Sunday-based value 19337 (Sunday 2022-12-11)
required by the claim: Python `weekday()` counts from Monday, so the cutoff
always has weekday Monday and is not the start of a Sunday-based week. -/
theorem claim_c1_counterexample :
    maxDate [aggSample] = some 19359 ∧
      windowStart 19359 3 = 19338 ∧
      sundayOnOrBefore 19359 - 7 * 3 = 19337 ∧
      weekdayMon 19359 = 0 ∧
      weekdayMon (windowStart 19359 3) = 0 ∧
      windowStart 19359 3 ≠ sundayOnOrBefore 19359 - 7 * 3 := by
  decide

/-- A two-row aggregated input whose max date 19359 (Monday 2023-01-02) lies
in the Sunday-started week beginning 19358 (Sunday 2023-01-01). -/
def rowsCurrentWeek : List AggRow :=
  [⟨"California", 19338, some "A", 5⟩, ⟨"California", 19359, some "B", 5⟩]

/-- Claim C2 (code bug): rows of the current, partial week are NOT excluded.
For `rowsCurrentWeek` the row dated 19359 lies in the current week (which
starts on Sunday 19358), passes the `date >= three_sundays_ago` filter, forms
the weekly group `(B, 19358)` with a proportion, and `B` is even returned. -/
theorem claim_c2_counterexample :
    maxDate rowsCurrentWeek = some 19359 ∧
      sundayOnOrBefore 19359 = 19358 ∧
      (∃ w ∈ propOf rowsCurrentWeek 3 19359,
        w.week = 19358 ∧ w.clade = some "B" ∧ 0 < w.count ∧
          mkRat 1 100 < proportion w) ∧
      clades_to_model rowsCurrentWeek (mkRat 1 100) 3 =
        some [some "A", some "B"] := by
  decide

/-- Ten high-prevalence variants plus one variant `Z` whose proportion never
reaches the threshold but whose total count is the smallest. -/
def rowsLowIncluded : List AggRow :=
  ((List.range 10).map
    (fun i => ⟨"California", 19359, some ("A" ++ toString i), 100⟩)) ++
  [⟨"California", 19359, some "Z", 1⟩]

/-- Claim C10 (implicit): the fallback ranking runs over all variants present
in the window, not only the threshold crossers: for `rowsLowIncluded` the
returned list contains `Z`, which crossed the threshold in no week. -/
theorem claim_c10_fallback_ranks_all_variants :
    clades_to_model rowsLowIncluded (mkRat 1 100) 3 =
      some [some "Z", some "A0", some "A1", some "A2", some "A3", some "A4",
        some "A5", some "A6", some "A7"] ∧
      some "Z" ∉ highPrevVariants (mkRat 1 100) (propOf rowsLowIncluded 3 19359) ∧
      9 < (highPrevVariants (mkRat 1 100) (propOf rowsLowIncluded 3 19359)).length ∧
      (∀ w ∈ propOf rowsLowIncluded 3 19359,
        w.clade = some "Z" → ¬(mkRat 1 100 < proportion w)) := by
  decide


/-- The group sum attached to a clade key is the window total of that clade. -/
theorem sumKey_clade_eq_totalOf (pd : List WeeklyRow) (c : Option String) :
    sumKey (pd.map (fun w => (w.clade, w.count))) c = totalOf pd c := by
  rw [sumKey, totalOf, List.filter_map, List.map_map]
  rfl

/-- Every threshold-crossing variant is a clade of the proportion frame. -/
theorem mem_hpv_mem_clades {threshold : ℚ} {pd : List WeeklyRow}
    {c : Option String} (h : c ∈ highPrevVariants threshold pd) :
    c ∈ pd.map (fun w => w.clade) := by
  rw [highPrevVariants, mem_dedupFirst, List.mem_map] at h
  obtain ⟨w, hw, rfl⟩ := h
  exact List.mem_map_of_mem _ (List.mem_filter.mp hw).1

/-- Specification of the fallback branch: when more than 9 variants cross the
threshold, the selected list has exactly 9 entries, is ascending in window
totals, and every unselected window variant has a total at least as large as
every selected one. -/
theorem fallbackVariants_spec {threshold : ℚ} (pd : List WeeklyRow)
    (hgt : 9 < (highPrevVariants threshold pd).length) :
    (fallbackVariants pd).length = 9 ∧
      (fallbackVariants pd).Pairwise
        (fun c d => totalOf pd c ≤ totalOf pd d) ∧
      ∀ c, (∃ w ∈ pd, w.clade = c) →
        c ∉ fallbackVariants pd →
        ∀ v ∈ fallbackVariants pd, totalOf pd v ≤ totalOf pd c := by
  simp only [fallbackVariants]
  have hval : ∀ p ∈ List.insertionSort countLE
      (groupSum (pd.map (fun w => (w.clade, w.count)))), p.2 = totalOf pd p.1 := by
    intro p hp
    have hp2 : p ∈ groupSum (pd.map (fun w => (w.clade, w.count))) :=
      ((List.perm_insertionSort countLE _).mem_iff).mp hp
    obtain ⟨-, hsum⟩ := mem_groupSum hp2
    rw [hsum, sumKey_clade_eq_totalOf]
  have hpair : ((List.insertionSort countLE
      (groupSum (pd.map (fun w => (w.clade, w.count))))).map Prod.fst).Pairwise
      (fun c d => totalOf pd c ≤ totalOf pd d) := by
    rw [List.pairwise_map]
    refine (List.sorted_insertionSort countLE _).imp_of_mem ?_
    intro p q hp hq hle
    rw [← hval p hp, ← hval q hq]
    exact hle
  have hlen : 9 < ((List.insertionSort countLE
      (groupSum (pd.map (fun w => (w.clade, w.count))))).map Prod.fst).length := by
    have hsub : ∀ c ∈ highPrevVariants threshold pd,
        c ∈ (pd.map (fun w => (w.clade, w.count))).map Prod.fst := by
      intro c hc
      rw [List.map_map]
      exact mem_hpv_mem_clades hc
    have hle := length_le_dedupFirst (nodup_dedupFirst _) hsub
    have hlen2 : ((List.insertionSort countLE
        (groupSum (pd.map (fun w => (w.clade, w.count))))).map Prod.fst).length =
        (dedupFirst ((pd.map (fun w => (w.clade, w.count))).map Prod.fst)).length := by
      rw [List.length_map, (List.perm_insertionSort countLE _).length_eq,
          groupSum_eq, List.length_map]
    rw [hlen2]
    exact lt_of_lt_of_le hgt hle
  refine ⟨?_, ?_, ?_⟩
  · rw [List.length_take]
    exact min_eq_left (le_of_lt hlen)
  · exact hpair.sublist (List.take_sublist _ _)
  · intro c hcpd hcnot v hv
    have hc1 : c ∈ (List.insertionSort countLE
        (groupSum (pd.map (fun w => (w.clade, w.count))))).map Prod.fst := by
      obtain ⟨w, hw, rfl⟩ := hcpd
      have hkey : w.clade ∈ (pd.map (fun w => (w.clade, w.count))).map Prod.fst := by
        rw [List.map_map]
        exact List.mem_map_of_mem _ hw
      exact (((List.perm_insertionSort countLE _).map Prod.fst).mem_iff).mpr
        (fst_mem_groupSum hkey)
  -- split the sorted key list at position 9 and place c in the dropped part
    have hcdrop : c ∈ ((List.insertionSort countLE
        (groupSum (pd.map (fun w => (w.clade, w.count))))).map Prod.fst).drop 9 := by
      rcases List.mem_append.mp (by rw [List.take_append_drop]; exact hc1 :
        c ∈ ((List.insertionSort countLE
          (groupSum (pd.map (fun w => (w.clade, w.count))))).map Prod.fst).take 9 ++
          ((List.insertionSort countLE
            (groupSum (pd.map (fun w => (w.clade, w.count))))).map Prod.fst).drop 9)
        with h | h
      · exact absurd h hcnot
      · exact h
    exact List.Sorted.rel_of_mem_take_of_mem_drop hpair hv hcdrop


/-- Claim C3: when strictly more than 9 distinct variants cross the threshold,
that set is discarded and the function returns exactly the 9 variants with
the smallest summed counts over the window, in ascending total-count order
(every unselected window variant totals at least as much as every selected
one). -/
theorem claim_c3_fallback_selection (rows : List AggRow) (threshold : ℚ)
    (tw : Nat) (maxDay : Day) (hmax : maxDate rows = some maxDay)
    (hgt : 9 < (highPrevVariants threshold (propOf rows tw maxDay)).length) :
    clades_to_model rows threshold tw =
      some (fallbackVariants (propOf rows tw maxDay)) ∧
      (fallbackVariants (propOf rows tw maxDay)).length = 9 ∧
      (fallbackVariants (propOf rows tw maxDay)).Pairwise
        (fun c d => totalOf (propOf rows tw maxDay) c ≤
          totalOf (propOf rows tw maxDay) d) ∧
      ∀ c, (∃ w ∈ propOf rows tw maxDay, w.clade = c) →
        c ∉ fallbackVariants (propOf rows tw maxDay) →
        ∀ v ∈ fallbackVariants (propOf rows tw maxDay),
          totalOf (propOf rows tw maxDay) v ≤
            totalOf (propOf rows tw maxDay) c := by
  obtain ⟨h1, h2, h3⟩ := fallbackVariants_spec (propOf rows tw maxDay) hgt
  exact ⟨clades_to_model_fallback hmax hgt, h1, h2, h3⟩

/-- Twelve distinct variants, every one above threshold in the window. -/
def rowsTwelve : List AggRow :=
  (List.range 12).map
    (fun i => ⟨"California", 19359, some ("V" ++ toString i), i + 1⟩)

/-- Claim C3, instantiated at a concrete input with 12 crossing variants. -/
theorem claim_c3_witness :
    clades_to_model rowsTwelve (mkRat 1 100) 3 =
      some (fallbackVariants (propOf rowsTwelve 3 19359)) ∧
      (fallbackVariants (propOf rowsTwelve 3 19359)).length = 9 :=
  ⟨(claim_c3_fallback_selection rowsTwelve (mkRat 1 100) 3 19359
      (by decide) (by decide)).1,
   (claim_c3_fallback_selection rowsTwelve (mkRat 1 100) 3 19359
      (by decide) (by decide)).2.1⟩

end CladeData
